import Mathlib

/-!
Shallow embedding of `src/A068994/main.c`: a search for exponents n such
that the last DIGITS decimal digits of 2^n are all even.  The program keeps
a little-endian decimal digit buffer holding 2^n mod 10^DIGITS, multiplies
it in place by 16 each step (one pass, fused x10 + x6 with a single carry),
tracks an "all digits even" flag, and prints a match line when the flag
holds.  `main` asserts that exactly 4 OpenMP threads run, seeds thread i
with 2^i, and loops forever in batches of BATCH steps, printing a progress
line after each batch.
-/

set_option autoImplicit false

namespace A068994

/-- `int DIGITS = 40;` — the number of trailing decimal digits tracked. -/
def DIGITS : Nat := 40

/-- `long long BATCH = 1'000'000'000;` — steps per progress report. -/
def BATCH : Nat := 1000000000

/-- The loop of `times16` (lines 34–43): state is the incoming carry and the
`good` accumulator; for each digit `d` (little-endian order) the new digit is
`(d*6 + carry) % 10`, the next carry is `d + (d*6 + carry) / 10`, and `good`
is AND-ed with the evenness of the new digit.  Returns the rewritten digits,
the final carry (discarded by the caller) and the final `good` flag. -/
def times16Loop : Nat → Bool → List Nat → List Nat × Nat × Bool
  | carry, good, [] => ([], carry, good)
  | carry, good, d :: ds =>
    let r := times16Loop (d + (d * 6 + carry) / 10)
      (good && ((d * 6 + carry) % 10 % 2 == 0)) ds
    ((d * 6 + carry) % 10 :: r.1, r.2.1, r.2.2)

/-- `times16` (lines 30–51), arithmetic part: the buffer after the in-place
multiplication by 16 (the final carry beyond position DIGITS-1 is dropped),
together with the `good` flag.  Printing is modelled by `times16Output`. -/
def times16 (tail : List Nat) : List Nat × Bool :=
  ((times16Loop 0 true tail).1, (times16Loop 0 true tail).2.2)

/-- `putchar(tail[j] + '0')` — the character printed for digit `d`. -/
def digitChar (d : Nat) : Char := Char.ofNat (48 + d)

/-- The characters `times16` writes to stdout (lines 44–50): if `good`, the
digits from index DIGITS-1 down to 0 as ASCII digits followed by a newline;
otherwise nothing. -/
def times16Output (tail : List Nat) : List Char :=
  if (times16 tail).2 then
    ((times16 tail).1.reverse.map digitChar) ++ ['\n']
  else []

/-- The value represented by a little-endian digit buffer
(index 0 = least significant). -/
def value : List Nat → Nat
  | [] => 0
  | d :: ds => d + 10 * value ds

/-- `tail[0]` after the seeding loop (lines 60–64): start at 1 and double
once per predecessor of the thread identity, so thread `id` holds `2^id`. -/
def seedVal : Nat → Nat
  | 0 => 1
  | i + 1 => seedVal i * 2

/-- The freshly seeded buffer of thread `id` (lines 58–64): `memset` to all
zeros, then `tail[0]` set to the seed value. -/
def initTail (id : Nat) : List Nat :=
  (List.replicate DIGITS 0).set 0 (seedVal id)

/-- The buffer of thread `id` after `k` applications of `times16`. -/
def workerTail (id : Nat) : Nat → List Nat
  | 0 => initTail id
  | k + 1 => (times16 (workerTail id k)).1

/-- Per-thread state: the digit buffer and the `steps` counter (line 65). -/
structure WorkerState where
  tail : List Nat
  steps : Nat
deriving DecidableEq

/-- Worker state right after seeding: fresh buffer, `steps = 0` (line 65). -/
def initWorker (id : Nat) : WorkerState :=
  ⟨initTail id, 0⟩

/-- Body of the inner batched loop (lines 68–72): apply `times16` to the
buffer and increment the step counter. -/
def workerStep (s : WorkerState) : WorkerState :=
  ⟨(times16 s.tail).1, s.steps + 1⟩

/-- The inner `for (int i = 0; i < n; i++)` loop: iterate `workerStep`. -/
def runInner : WorkerState → Nat → WorkerState
  | s, 0 => s
  | s, n + 1 => runInner (workerStep s) n

/-- Worker state of thread `id` after `b` full batches of the outer
`while (1)` loop (lines 66–74). -/
def workerAfterBatches (id : Nat) : Nat → WorkerState
  | 0 => initWorker id
  | b + 1 => runInner (workerAfterBatches id b) BATCH

/-- `printf("Steps: %lld from %d\n", steps, ...)` without the newline:
the progress line text for a step count and thread identity. -/
def progressLine (steps id : Nat) : String :=
  "Steps: " ++ toString steps ++ " from " ++ toString id

/-- The progress line thread `id` prints after its `b`-th batch (line 73). -/
def workerReport (id b : Nat) : String :=
  progressLine (workerAfterBatches id b).steps id

/-- Outcome of `main` (lines 53–76): either the `assert` on line 55 fires and
the process aborts before any multiplication, or the parallel region runs. -/
inductive MainOutcome where
  | aborted : MainOutcome
  | launched : List WorkerState → MainOutcome
deriving DecidableEq

/-- `main`, parametrised by the OpenMP thread count and observed after `b`
batches per thread: `assert(omp_get_max_threads() == 4)` aborts unless the
count is 4; otherwise every thread `id < 4` runs its worker loop. -/
def mainRun (maxThreads b : Nat) : MainOutcome :=
  if maxThreads = 4 then
    MainOutcome.launched ((List.range maxThreads).map fun id => workerAfterBatches id b)
  else MainOutcome.aborted

/-- The carries entering each loop position of `times16Loop` (including the
initial carry and the final discarded one), for overflow analysis. -/
def carryTrace : Nat → List Nat → List Nat
  | c, [] => [c]
  | c, d :: ds => c :: carryTrace (d + (d * 6 + c) / 10) ds

/-- The largest intermediate per-digit value `tail[i]*6 + carry` reached at
each position of `times16Loop`, for overflow analysis. -/
def interTrace : Nat → List Nat → List Nat
  | _, [] => []
  | c, d :: ds => (d * 6 + c) :: interTrace (d + (d * 6 + c) / 10) ds

/-- `2^32`, the modulus of the wrap-around model of C `int` arithmetic. -/
def U32 : Nat := 2 ^ 32

/-- `times16Loop` with every arithmetic result reduced mod `2^32`, modelling
fixed-width machine integers (values here never reach the sign bit, so the
unsigned wrap model covers `int`). -/
def times16LoopM : Nat → Bool → List Nat → List Nat × Nat × Bool
  | carry, good, [] => ([], carry, good)
  | carry, good, d :: ds =>
    let t := (d * 6 % U32 + carry) % U32
    let r := times16LoopM ((d + t / 10) % U32) (good && (t % 10 % 2 == 0)) ds
    (t % 10 :: r.1, r.2.1, r.2.2)

/-- `times16` computed with wrap-around machine arithmetic. -/
def times16M (tail : List Nat) : List Nat × Bool :=
  ((times16LoopM 0 true tail).1, (times16LoopM 0 true tail).2.2)

/-- Modelled from the spec: the single-worker reference sequence
`2^n mod 10^DIGITS` for `n = 0, 1, 2, ...` (spec §8, multi-worker
coverage), against which the workers' merged states are compared. -/
def singleWorkerRef (n : Nat) : Nat := 2 ^ n % 10 ^ DIGITS

/-! ### Core lemmas about the multiplication pass -/

theorem times16Loop_length (ds : List Nat) : ∀ (carry : Nat) (g : Bool),
    (times16Loop carry g ds).1.length = ds.length := by
  induction ds with
  | nil => intro carry g; rfl
  | cons d ds ih => intro carry g; simp [times16Loop, ih]

theorem times16Loop_digits_le (ds : List Nat) : ∀ (carry : Nat) (g : Bool),
    ∀ x ∈ (times16Loop carry g ds).1, x ≤ 9 := by
  induction ds with
  | nil => intro carry g x hx; simp [times16Loop] at hx
  | cons d ds ih =>
    intro carry g x hx
    simp only [times16Loop, List.mem_cons] at hx
    rcases hx with h | h
    · omega
    · exact ih _ _ x h

theorem times16Loop_value (ds : List Nat) : ∀ (carry : Nat) (g : Bool),
    value (times16Loop carry g ds).1 + 10 ^ ds.length * (times16Loop carry g ds).2.1
      = 16 * value ds + carry := by
  induction ds with
  | nil => intro carry g; simp [times16Loop, value]
  | cons d ds ih =>
    intro carry g
    have h := ih (d + (d * 6 + carry) / 10) (g && ((d * 6 + carry) % 10 % 2 == 0))
    have hp : ∀ fc : Nat, (10 : Nat) ^ (ds.length + 1) * fc = 10 * (10 ^ ds.length * fc) :=
      fun fc => by ring
    simp only [times16Loop, value, List.length_cons]
    rw [hp]
    omega

theorem times16Loop_good (ds : List Nat) : ∀ (carry : Nat) (g : Bool),
    (times16Loop carry g ds).2.2
      = (g && (times16Loop carry g ds).1.all fun d => d % 2 == 0) := by
  induction ds with
  | nil => intro carry g; simp [times16Loop]
  | cons d ds ih =>
    intro carry g
    simp only [times16Loop, List.all_cons]
    rw [ih]
    rw [Bool.and_assoc]

theorem value_lt_of_digits_le : ∀ ds : List Nat,
    (∀ x ∈ ds, x ≤ 9) → value ds < 10 ^ ds.length := by
  intro ds
  induction ds with
  | nil => intro _; simp [value]
  | cons d ds ih =>
    intro h
    have hd : d ≤ 9 := h d (by simp)
    have ht : value ds < 10 ^ ds.length := ih fun x hx => h x (by simp [hx])
    simp only [value, List.length_cons, pow_succ]
    omega

/-- Unconditional form of the multiplication correctness: the rewritten
buffer represents `16 * V mod 10^len`. -/
theorem times16_value (tail : List Nat) :
    value (times16 tail).1 = 16 * value tail % 10 ^ tail.length := by
  have h := times16Loop_value tail 0 true
  have hlt : value (times16Loop 0 true tail).1 < 10 ^ tail.length := by
    have hv := value_lt_of_digits_le (times16Loop 0 true tail).1
      (times16Loop_digits_le tail 0 true)
    rwa [times16Loop_length tail 0 true] at hv
  have heq : 16 * value tail
      = value (times16Loop 0 true tail).1
        + 10 ^ tail.length * (times16Loop 0 true tail).2.1 := by omega
  simp only [times16]
  rw [heq, Nat.add_mul_mod_self_left, Nat.mod_eq_of_lt hlt]

theorem times16_length (tail : List Nat) : (times16 tail).1.length = tail.length :=
  times16Loop_length tail 0 true

theorem times16_digits_le (tail : List Nat) : ∀ x ∈ (times16 tail).1, x ≤ 9 :=
  times16Loop_digits_le tail 0 true

theorem times16_good_eq_all (tail : List Nat) :
    (times16 tail).2 = ((times16 tail).1.all fun d => d % 2 == 0) := by
  simp only [times16]
  rw [times16Loop_good]
  simp

theorem times16_good_iff (tail : List Nat) :
    (times16 tail).2 = true ↔ ∀ d ∈ (times16 tail).1, d % 2 = 0 := by
  rw [times16_good_eq_all, List.all_eq_true]
  simp

/-! ### Lemmas about worker seeding and iteration -/

theorem seedVal_eq (i : Nat) : seedVal i = 2 ^ i := by
  induction i with
  | zero => rfl
  | succ n ih => simp [seedVal, ih, pow_succ]

theorem initTail_eq (id : Nat) :
    initTail id = seedVal id :: List.replicate (DIGITS - 1) 0 := rfl

theorem initTail_length (id : Nat) : (initTail id).length = DIGITS := by
  simp [initTail]

theorem value_replicate_zero : ∀ n, value (List.replicate n 0) = 0
  | 0 => rfl
  | n + 1 => by
    rw [List.replicate_succ]
    simp [value, value_replicate_zero n]

theorem value_initTail (id : Nat) : value (initTail id) = 2 ^ id := by
  rw [initTail_eq, seedVal_eq]
  simp [value, value_replicate_zero]

theorem workerTail_length (id : Nat) : ∀ k, (workerTail id k).length = DIGITS
  | 0 => initTail_length id
  | k + 1 => by
    simp only [workerTail]
    rw [times16_length]
    exact workerTail_length id k

theorem workerTail_value (id : Nat) (hid : id < 4) :
    ∀ k, value (workerTail id k) = 2 ^ (id + 4 * k) % 10 ^ DIGITS := by
  intro k
  induction k with
  | zero =>
    have hlt : (2 : Nat) ^ id < 10 ^ DIGITS :=
      lt_of_le_of_lt (Nat.pow_le_pow_right (by norm_num) (by omega : id ≤ 3))
        (by norm_num [DIGITS])
    simp only [workerTail, value_initTail, Nat.mul_zero, Nat.add_zero]
    exact (Nat.mod_eq_of_lt hlt).symm
  | succ k ih =>
    have hv := times16_value (workerTail id k)
    rw [workerTail_length id k] at hv
    have h16 : (16 : Nat) * 2 ^ (id + 4 * k) = 2 ^ (id + 4 * (k + 1)) := by
      rw [show (16 : Nat) = 2 ^ 4 from by norm_num, ← pow_add]
      congr 1
      omega
    simp only [workerTail]
    rw [hv, ih, Nat.mul_mod_mod, h16]

theorem runInner_steps : ∀ (n : Nat) (s : WorkerState),
    (runInner s n).steps = s.steps + n := by
  intro n
  induction n with
  | zero => intro s; rfl
  | succ n ih =>
    intro s
    simp only [runInner]
    rw [ih]
    simp [workerStep]
    omega

theorem workerAfterBatches_steps (id : Nat) :
    ∀ b, (workerAfterBatches id b).steps = b * BATCH
  | 0 => rfl
  | b + 1 => by
    simp only [workerAfterBatches]
    rw [runInner_steps, workerAfterBatches_steps id b, Nat.succ_mul]

/-! ### Claim theorems -/

/-- C1: for every buffer of DIGITS digits, each in [0,9], representing the
value V (little-endian, index 0 least significant), one application of
`times16` leaves the buffer representing exactly `(V*16) mod 10^DIGITS`,
with the final carry beyond position DIGITS-1 discarded. -/
theorem spec_times16_value (tail : List Nat)
    (hlen : tail.length = DIGITS) (_hdig : ∀ x ∈ tail, x ≤ 9) :
    value (times16 tail).1 = value tail * 16 % 10 ^ DIGITS := by
  rw [Nat.mul_comm, ← hlen]
  exact times16_value tail

theorem spec_times16_value_witness :
    (List.replicate DIGITS 7).length = DIGITS
    ∧ (∀ x ∈ List.replicate DIGITS 7, x ≤ 9)
    ∧ value (times16 (List.replicate DIGITS 7)).1
        = value (List.replicate DIGITS 7) * 16 % 10 ^ DIGITS :=
  ⟨by decide, by decide,
    spec_times16_value (List.replicate DIGITS 7) (by decide) (by decide)⟩

/-- C2: for every valid input buffer, the `good` flag computed by `times16`
is true if and only if every digit of the resulting buffer is even, and it
equals the AND of `digit % 2 == 0` over all positions of the result. -/
theorem spec_parity_flag (tail : List Nat)
    (_hlen : tail.length = DIGITS) (_hdig : ∀ x ∈ tail, x ≤ 9) :
    ((times16 tail).2 = true ↔ ∀ d ∈ (times16 tail).1, d % 2 = 0)
    ∧ (times16 tail).2 = ((times16 tail).1.all fun d => d % 2 == 0) :=
  ⟨times16_good_iff tail, times16_good_eq_all tail⟩

theorem spec_parity_flag_witness :
    (List.replicate DIGITS 2).length = DIGITS
    ∧ (∀ x ∈ List.replicate DIGITS 2, x ≤ 9)
    ∧ (((times16 (List.replicate DIGITS 2)).2 = true
          ↔ ∀ d ∈ (times16 (List.replicate DIGITS 2)).1, d % 2 = 0)
        ∧ (times16 (List.replicate DIGITS 2)).2
            = ((times16 (List.replicate DIGITS 2)).1.all fun d => d % 2 == 0)) :=
  ⟨by decide, by decide,
    spec_parity_flag (List.replicate DIGITS 2) (by decide) (by decide)⟩

/-- C4: if every element of the buffer is in [0,9] before an application of
`times16`, then every element is in [0,9] after it, and the buffer's length
never changes. -/
theorem spec_digit_invariant (tail : List Nat) (_hdig : ∀ x ∈ tail, x ≤ 9) :
    (∀ x ∈ (times16 tail).1, x ≤ 9) ∧ (times16 tail).1.length = tail.length :=
  ⟨fun x hx => times16Loop_digits_le tail 0 true x hx,
   times16Loop_length tail 0 true⟩

theorem spec_digit_invariant_witness :
    (∀ x ∈ List.replicate DIGITS 9, x ≤ 9)
    ∧ ((∀ x ∈ (times16 (List.replicate DIGITS 9)).1, x ≤ 9)
        ∧ (times16 (List.replicate DIGITS 9)).1.length
            = (List.replicate DIGITS 9).length) :=
  ⟨by decide, spec_digit_invariant (List.replicate DIGITS 9) (by decide)⟩

/-- C10: the all-zero buffer is a fixed point of `times16` that always
reports: applying `times16` to the all-zero DIGITS-digit buffer yields the
all-zero buffer again with the `good` flag set, and emits a match line of
DIGITS ASCII `0` characters followed by a newline. -/
theorem spec_zero_fixed_point :
    times16 (List.replicate DIGITS 0) = (List.replicate DIGITS 0, true)
    ∧ times16Output (List.replicate DIGITS 0)
        = List.replicate DIGITS '0' ++ ['\n'] := by
  constructor <;> decide

/-- C3: with the 4 workers seeded with `2^identity` and each `times16` step
multiplying by `16 = 2^4`, the buffer of worker `i` after `k` applications
represents `2^(i + 4k) mod 10^DIGITS`; merged by exponent, the four state
sequences equal the single-worker reference `2^n mod 10^DIGITS` in order. -/
theorem spec_worker_coverage (i k n : Nat) (hi : i < 4) :
    value (workerTail i k) = singleWorkerRef (i + 4 * k)
    ∧ value (workerTail (n % 4) (n / 4)) = singleWorkerRef n := by
  constructor
  · simp only [singleWorkerRef]
    exact workerTail_value i hi k
  · have h := workerTail_value (n % 4) (Nat.mod_lt n (by norm_num)) (n / 4)
    simp only [singleWorkerRef]
    rwa [Nat.mod_add_div] at h

theorem spec_worker_coverage_witness :
    1 < 4
    ∧ (value (workerTail 1 2) = singleWorkerRef (1 + 4 * 2)
        ∧ value (workerTail (9 % 4) (9 / 4)) = singleWorkerRef 9) :=
  ⟨by decide, spec_worker_coverage 1 2 9 (by decide)⟩

/-- C5: for every worker identity `i < 4`, initialization produces a buffer
with all digits in [0,9] representing exactly `2^i`, zero everywhere above
position 0, and the step counter starts at 0. -/
theorem spec_worker_init (i : Nat) (hi : i < 4) :
    (∀ x ∈ initTail i, x ≤ 9)
    ∧ value (initTail i) = 2 ^ i
    ∧ (∀ j, j < DIGITS → 0 < j → (initTail i).getD j 0 = 0)
    ∧ (initWorker i).steps = 0 := by
  interval_cases i <;> exact ⟨by decide, by decide, by decide, rfl⟩

theorem spec_worker_init_witness :
    3 < 4
    ∧ ((∀ x ∈ initTail 3, x ≤ 9)
        ∧ value (initTail 3) = 2 ^ 3
        ∧ (∀ j, j < DIGITS → 0 < j → (initTail 3).getD j 0 = 0)
        ∧ (initWorker 3).steps = 0) :=
  ⟨by decide, spec_worker_init 3 (by decide)⟩

/-- C6: at startup, before the parallel region, the program checks that the
thread count equals 4; on a mismatch it aborts with no multiplier steps
performed, and on a match the 4 workers run. -/
theorem spec_startup_check (t b : Nat) :
    (mainRun t b = MainOutcome.aborted ↔ t ≠ 4)
    ∧ mainRun 4 b = MainOutcome.launched
        ((List.range 4).map fun id => workerAfterBatches id b) := by
  constructor
  · rcases eq_or_ne t 4 with h | h <;> simp [mainRun, h]
  · simp [mainRun]

/-- C8: the progress line a worker prints after its `b`-th batch shows the
cumulative step count `b * BATCH` and the worker's identity, in the form
`Steps: <count> from <worker_id>`. -/
theorem spec_progress_line (id b : Nat) :
    (workerAfterBatches id b).steps = b * BATCH
    ∧ workerReport id b
        = "Steps: " ++ toString (b * BATCH) ++ " from " ++ toString id := by
  refine ⟨workerAfterBatches_steps id b, ?_⟩
  simp only [workerReport, progressLine, workerAfterBatches_steps]

theorem digitChar_ascii (d : Nat) (hd : d ≤ 9) :
    48 ≤ (digitChar d).toNat ∧ (digitChar d).toNat ≤ 57 := by
  interval_cases d <;> decide

/-- C7: a match line is emitted by `times16` if and only if all digits of
the resulting buffer are even (leading zeros included), and it consists of
exactly DIGITS ASCII decimal digit characters, most significant first,
followed by a single newline. -/
theorem spec_match_line (tail : List Nat) (hlen : tail.length = DIGITS) :
    (times16Output tail ≠ [] ↔ ∀ d ∈ (times16 tail).1, d % 2 = 0)
    ∧ ((times16 tail).2 = true →
        times16Output tail = ((times16 tail).1.reverse.map digitChar) ++ ['\n']
        ∧ ((times16 tail).1.reverse.map digitChar).length = DIGITS
        ∧ ∀ c ∈ (times16 tail).1.reverse.map digitChar,
            48 ≤ c.toNat ∧ c.toNat ≤ 57) := by
  constructor
  · rw [← times16_good_iff tail]
    by_cases hg : (times16 tail).2 <;> simp [times16Output, hg]
  · intro hg
    refine ⟨by simp [times16Output, hg], ?_, ?_⟩
    · rw [List.length_map, List.length_reverse, times16_length, hlen]
    · intro c hc
      rw [List.mem_map] at hc
      obtain ⟨d, hd, rfl⟩ := hc
      exact digitChar_ascii d (times16_digits_le tail d (List.mem_reverse.mp hd))

theorem spec_match_line_witness :
    (List.replicate DIGITS 4).length = DIGITS
    ∧ ((times16Output (List.replicate DIGITS 4) ≠ []
          ↔ ∀ d ∈ (times16 (List.replicate DIGITS 4)).1, d % 2 = 0)
        ∧ ((times16 (List.replicate DIGITS 4)).2 = true →
            times16Output (List.replicate DIGITS 4)
              = ((times16 (List.replicate DIGITS 4)).1.reverse.map digitChar) ++ ['\n']
            ∧ ((times16 (List.replicate DIGITS 4)).1.reverse.map digitChar).length = DIGITS
            ∧ ∀ c ∈ (times16 (List.replicate DIGITS 4)).1.reverse.map digitChar,
                48 ≤ c.toNat ∧ c.toNat ≤ 57)) :=
  ⟨by decide, spec_match_line (List.replicate DIGITS 4) (by decide)⟩

theorem times16LoopM_eq : ∀ (ds : List Nat) (carry : Nat) (g : Bool),
    (∀ x ∈ ds, x ≤ 9) → carry ≤ 15 →
    times16LoopM carry g ds = times16Loop carry g ds
      ∧ (times16Loop carry g ds).2.1 ≤ 15 := by
  intro ds
  induction ds with
  | nil => intro carry g _ hc; exact ⟨rfl, hc⟩
  | cons d ds ih =>
    intro carry g h hc
    have hd : d ≤ 9 := h d (by simp)
    have hU : U32 = 4294967296 := by norm_num [U32]
    have h1 : d * 6 % U32 = d * 6 := Nat.mod_eq_of_lt (by omega)
    have h2 : (d * 6 + carry) % U32 = d * 6 + carry := Nat.mod_eq_of_lt (by omega)
    have hnc : d + (d * 6 + carry) / 10 ≤ 15 := by omega
    have h3 : (d + (d * 6 + carry) / 10) % U32 = d + (d * 6 + carry) / 10 :=
      Nat.mod_eq_of_lt (by omega)
    have hih := ih (d + (d * 6 + carry) / 10)
      (g && ((d * 6 + carry) % 10 % 2 == 0))
      (fun x hx => h x (by simp [hx])) hnc
    constructor
    · simp only [times16LoopM, times16Loop, h1, h2, h3]
      rw [hih.1]
    · simp only [times16Loop]
      exact hih.2

theorem carryTrace_le : ∀ (ds : List Nat) (carry : Nat),
    (∀ x ∈ ds, x ≤ 9) → carry ≤ 15 → ∀ c ∈ carryTrace carry ds, c ≤ 15 := by
  intro ds
  induction ds with
  | nil =>
    intro carry _ hc c hmem
    simp only [carryTrace, List.mem_singleton] at hmem
    omega
  | cons d ds ih =>
    intro carry h hc c hmem
    have hd : d ≤ 9 := h d (by simp)
    simp only [carryTrace, List.mem_cons] at hmem
    rcases hmem with rfl | hmem
    · exact hc
    · exact ih _ (fun x hx => h x (by simp [hx])) (by omega) c hmem

theorem interTrace_le : ∀ (ds : List Nat) (carry : Nat),
    (∀ x ∈ ds, x ≤ 9) → carry ≤ 15 → ∀ t ∈ interTrace carry ds, t ≤ 69 := by
  intro ds
  induction ds with
  | nil => intro carry _ hc t hmem; simp [interTrace] at hmem
  | cons d ds ih =>
    intro carry h hc t hmem
    have hd : d ≤ 9 := h d (by simp)
    simp only [interTrace, List.mem_cons] at hmem
    rcases hmem with rfl | hmem
    · omega
    · exact ih _ (fun x hx => h x (by simp [hx])) (by omega) t hmem

/-- C9: for every input buffer with digits in [0,9] the pass carry never
exceeds 15 and every intermediate per-digit value `d*6 + carry` never
exceeds 69, so the fixed-width machine computation (modelled mod `2^32`)
agrees with exact integer arithmetic. -/
theorem spec_no_overflow (tail : List Nat) (hdig : ∀ x ∈ tail, x ≤ 9) :
    (∀ c ∈ carryTrace 0 tail, c ≤ 15)
    ∧ (∀ t ∈ interTrace 0 tail, t ≤ 69)
    ∧ times16M tail = times16 tail := by
  refine ⟨carryTrace_le tail 0 hdig (by omega),
    interTrace_le tail 0 hdig (by omega), ?_⟩
  have h := times16LoopM_eq tail 0 true hdig (by omega)
  simp only [times16M, times16, h.1]

theorem spec_no_overflow_witness :
    (∀ x ∈ List.replicate DIGITS 8, x ≤ 9)
    ∧ ((∀ c ∈ carryTrace 0 (List.replicate DIGITS 8), c ≤ 15)
        ∧ (∀ t ∈ interTrace 0 (List.replicate DIGITS 8), t ≤ 69)
        ∧ times16M (List.replicate DIGITS 8) = times16 (List.replicate DIGITS 8)) :=
  ⟨by decide, spec_no_overflow (List.replicate DIGITS 8) (by decide)⟩

end A068994
